import Mathlib

/-!
Verification of the giveaway-draw component from src/components/GiveawayDraw.tsx.

Text is modelled as lists of characters. JavaScript string primitives used by
the component (trim, split on newline, the regular expression match, replace
of whitespace runs, toLowerCase, parseInt, Array.indexOf, Set deduplication,
index-based filtering) are given explicit executable models below, and the
component state together with its four mutating operations (load, draw,
reset, clear) is a record with pure transition functions.
-/

namespace Giveaway

/-- JavaScript whitespace class (the regex class for spaces and the set
trimmed by String.trim): space, tab, newline, carriage return, vertical tab,
form feed, and the no-break space as representative of the Unicode spaces. -/
def jsSpace (c : Char) : Bool :=
  c = ' ' || c = '\t' || c = '\n' || c = '\r' || c = '\x0b' || c = '\x0c' || c = ' '

/-- JavaScript line terminators: the dot in a regex matches any character
except these. -/
def lineTerm (c : Char) : Bool :=
  c = '\n' || c = '\r' || c = ' ' || c = ' '

/-- String.trim: drop leading and trailing whitespace. -/
def jsTrim (s : List Char) : List Char :=
  ((s.dropWhile jsSpace).reverse.dropWhile jsSpace).reverse

/-- String.split with separator a single newline character. -/
def splitNl : List Char → List (List Char)
  | [] => [[]]
  | c :: rest =>
    if c = '\n' then [] :: splitNl rest
    else
      match splitNl rest with
      | [] => [[c]]
      | l :: ls => (c :: l) :: ls

/-- parseInt on a run of decimal digits (radix 10). -/
def digitsToNat (ds : List Char) : Nat :=
  ds.foldl (fun acc c => acc * 10 + (c.toNat - 48)) 0

/-- One decimal digit as a character. -/
def digitChar : Nat → Char
  | 0 => '0' | 1 => '1' | 2 => '2' | 3 => '3' | 4 => '4'
  | 5 => '5' | 6 => '6' | 7 => '7' | 8 => '8' | _ => '9'

/-- Decimal representation of a natural number, accumulator form; the fuel
argument makes the division recursion structural and is always given at
least the number itself plus one, which the base-ten division consumes far
more slowly than one per step. -/
def natReprAux : Nat → Nat → List Char → List Char
  | 0, _, acc => acc
  | fuel + 1, n, acc =>
    if n < 10 then digitChar n :: acc
    else natReprAux fuel (n / 10) (digitChar (n % 10) :: acc)

/-- Decimal representation of a natural number, as produced by JavaScript
template interpolation of an integer. -/
def natRepr (n : Nat) : List Char := natReprAux (n + 1) n []

/-- String.replace with a global whitespace-run pattern and a hyphen
replacement: every maximal run of whitespace becomes a single hyphen.
The Boolean argument records whether the previous character was whitespace. -/
def collapseWsAux : Bool → List Char → List Char
  | _, [] => []
  | prevWs, c :: rest =>
    if jsSpace c then
      if prevWs then collapseWsAux true rest
      else '-' :: collapseWsAux true rest
    else c :: collapseWsAux false rest

def collapseWs (s : List Char) : List Char := collapseWsAux false s

/-- The regex match of a trimmed line against the anchored pattern
digits, optional whitespace, hyphen, optional whitespace, rest of line.
Returns the two capture groups: the digit run and the remainder.

The digit group is the maximal digit run (no shorter run can be followed by
the required whitespace-then-hyphen). The first whitespace group is the
maximal whitespace run after the digits, which must be followed by a literal
hyphen. The final group is one or more dot characters up to the end of the
line, where a dot matches anything except a line terminator; the greedy
whitespace before it backtracks one character at a time, so when the
remainder after the hyphen is all whitespace the group captures just the
last of those characters, provided it is not itself a line terminator. -/
def matchLine (t : List Char) : Option (List Char × List Char) :=
  if (t.takeWhile Char.isDigit).isEmpty then none
  else
    match (t.dropWhile Char.isDigit).dropWhile jsSpace with
    | [] => none
    | c :: r3 =>
      if c = '-' then
        if (r3.dropWhile jsSpace).isEmpty then
          match r3.reverse with
          | [] => none
          | c0 :: _ =>
            if lineTerm c0 then none else some (t.takeWhile Char.isDigit, [c0])
        else if (r3.dropWhile jsSpace).all (fun x => !lineTerm x) then
          some (t.takeWhile Char.isDigit, r3.dropWhile jsSpace)
        else none
      else none

structure Participant where
  number : Nat
  name : List Char
  id : List Char
deriving Repr, DecidableEq

structure Winner extends Participant where
  drawnAt : Nat
  position : Nat
deriving Repr, DecidableEq

/-- The body of the parsing loop for one raw line: trim, match the pattern,
parse the integer (never NaN on a digit run), and require a non-empty trimmed
remainder; the id is the decimal number, a hyphen, and the trimmed name with
whitespace runs collapsed to hyphens and then lowercased. -/
def parseLine (line : List Char) : Option Participant :=
  match matchLine (jsTrim line) with
  | none => none
  | some (ds, nm) =>
    if (jsTrim nm).isEmpty then none
    else some
      { number := digitsToNat ds
        name := jsTrim nm
        id := natRepr (digitsToNat ds) ++ '-' :: (collapseWs (jsTrim nm)).map Char.toLower }

/-- The body of the parsing loop: push the parsed participant of a matching
line, leave the accumulator alone for a non-matching line. -/
def pushParsed (acc : List Participant) (line : List Char) : List Participant :=
  match parseLine line with
  | some p => acc ++ [p]
  | none => acc

/-- parseParticipants: trim the text, split into lines, keep non-blank lines,
and run the parsing loop, pushing each successfully parsed participant. -/
def parseParticipants (text : List Char) : List Participant :=
  ((splitNl (jsTrim text)).filter (fun l => !(jsTrim l).isEmpty)).foldl pushParsed []

/-- Array.prototype.indexOf specialised to numbers: index of the first
occurrence, counting from the offset argument. JavaScript returns -1 when the
element is absent; the component only queries elements that are present, and
in the absent case this model returns the length, which likewise differs from
every real index. -/
def jsIndexOfAux (x : Nat) : List Nat → Nat → Nat
  | [], i => i
  | y :: ys, i => if y = x then i else jsIndexOfAux x ys (i + 1)

def jsIndexOf (x : Nat) (l : List Nat) : Nat := jsIndexOfAux x l 0

/-- Pair every element with its index, starting from the given offset,
mirroring the (element, index) arguments of Array callback functions. -/
def withIdx : Nat → List α → List (α × Nat)
  | _, [] => []
  | i, x :: xs => (x, i) :: withIdx (i + 1) xs

/-- numbers.filter of the elements whose first-occurrence index differs from
their own index: the non-first occurrences. -/
def duplicatesIn (numbers : List Nat) : List Nat :=
  ((withIdx 0 numbers).filter (fun p => jsIndexOf p.1 numbers ≠ p.2)).map Prod.fst

/-- Spreading a Set built from a list: deduplication keeping the first
occurrence of each value. The first argument is the set of values already
inserted. -/
def dedupFirst (seen : List Nat) : List Nat → List Nat
  | [] => []
  | x :: xs =>
    if x ∈ seen then dedupFirst seen xs
    else x :: dedupFirst (x :: seen) xs

/-- participants.filter of the elements whose index differs from the given
one: removal by position. -/
def removeAtIdx (l : List α) (i : Nat) : List α :=
  ((withIdx 0 l).filter (fun p => p.2 ≠ i)).map Prod.fst

/-- The component's local state: the six useState hooks. -/
structure DrawState where
  participantText : List Char
  participants : List Participant
  originalParticipants : List Participant
  winners : List Winner
  currentWinner : Option Winner
  isDrawing : Bool
deriving Repr, DecidableEq

/-- The initial state of the six hooks. -/
def initState : DrawState :=
  { participantText := []
    participants := []
    originalParticipants := []
    winners := []
    currentWinner := none
    isDrawing := false }

/-- The outcome surfaced by the load handler's toast. -/
inductive SubmitOutcome where
  | invalidFormat
  | duplicateNumbers (dups : List Nat)
  | loaded (count : Nat)
deriving Repr, DecidableEq

/-- handleParticipantsSubmit: parse the text; reject an empty parse as
invalid format; reject duplicate numbers, reporting the distinct duplicated
values; otherwise install the parsed list as both the working pool and the
original snapshot and clear the winners history and the current winner. -/
def handleParticipantsSubmit (s : DrawState) : DrawState × SubmitOutcome :=
  let parsed := parseParticipants s.participantText
  if parsed.length = 0 then (s, .invalidFormat)
  else
    let numbers := parsed.map Participant.number
    let duplicates := duplicatesIn numbers
    if 0 < duplicates.length then (s, .duplicateNumbers (dedupFirst [] duplicates))
    else
      ({ s with
          participants := parsed
          originalParticipants := parsed
          winners := []
          currentWinner := none },
        .loaded parsed.length)

/-- The toast raised by drawWinner on an empty pool. -/
inductive DrawSignal where
  | noParticipants
deriving Repr, DecidableEq

/-- The synchronous part of drawWinner: reject an empty pool with the
no-participants signal; otherwise enter the drawing state and hide the
current winner while the reveal timeout is pending. -/
def drawWinner (s : DrawState) : DrawState × Option DrawSignal :=
  if s.participants.length = 0 then (s, some .noParticipants)
  else ({ s with isDrawing := true, currentWinner := none }, none)

/-- The body of the reveal timeout: read the participant at the random
index, build the winner stamped with the current time and position one past
the winner count, append it to the history, show it as current winner,
remove the selected participant from the pool by index, and leave the
drawing state. The random index produced by the source is always below the
pool length, so the out-of-range branch is unreachable there. -/
def drawComplete (s : DrawState) (randomIndex : Nat) (now : Nat) : DrawState :=
  match s.participants.get? randomIndex with
  | none => s
  | some selectedParticipant =>
    let winner : Winner :=
      { toParticipant := selectedParticipant
        drawnAt := now
        position := s.winners.length + 1 }
    { s with
        currentWinner := some winner
        winners := s.winners ++ [winner]
        participants := removeAtIdx s.participants randomIndex
        isDrawing := false }

/-- One whole draw as the source performs it: the synchronous part of
drawWinner followed, when no signal was raised, by the timeout body. -/
def drawFull (s : DrawState) (randomIndex : Nat) (now : Nat) : DrawState :=
  match drawWinner s with
  | (s1, some _) => s1
  | (s1, none) => drawComplete s1 randomIndex now

/-- The draw button: disabled while drawing or when the pool is empty, so a
click in those states fires nothing. -/
def drawClick (s : DrawState) (randomIndex : Nat) (now : Nat) : DrawState :=
  if s.isDrawing = true ∨ s.participants.length = 0 then s
  else drawFull s randomIndex now

/-- resetDraw: restore the pool from the original snapshot, clear the
winners history and the current winner. -/
def resetDraw (s : DrawState) : DrawState :=
  { s with
      participants := s.originalParticipants
      winners := []
      currentWinner := none }

/-- clearAll: clear the input text, the pool, the original snapshot, the
winners history and the current winner. -/
def clearAll (s : DrawState) : DrawState :=
  { s with
      participantText := []
      participants := []
      originalParticipants := []
      winners := []
      currentWinner := none }

/-- Spec-side reading of the line pattern, written from the specification's
words for comparison with the source parser: after trimming, the line is an
integer (a non-empty digit run), optional whitespace, a hyphen, optional
whitespace, and a rest-of-line remainder (free of line terminators) whose
trimmed form is non-empty; the record carries the parsed integer, the
trimmed remainder as name, and the id built from the decimal number, a
hyphen, and the name with whitespace runs collapsed to hyphens and
lowercased. -/
def LineAccepted (line : List Char) (p : Participant) : Prop :=
  ∃ ds w1 w2 r,
    jsTrim line = ds ++ w1 ++ '-' :: (w2 ++ r) ∧
    ds ≠ [] ∧ (∀ c ∈ ds, c.isDigit = true) ∧
    (∀ c ∈ w1, jsSpace c = true) ∧
    (∀ c ∈ w2, jsSpace c = true) ∧
    (∀ c ∈ r, lineTerm c = false) ∧
    jsTrim r ≠ [] ∧
    p.number = digitsToNat ds ∧
    p.name = jsTrim r ∧
    p.id = natRepr p.number ++ '-' :: (collapseWs p.name).map Char.toLower

/-- A sequence of whole draws, each given its random index and time. -/
def drawSeq (s : DrawState) : List (Nat × Nat) → DrawState
  | [] => s
  | (i, t) :: rest => drawSeq (drawFull s i t) rest

/-- Each random index of the sequence is in range for the pool it draws
from, as the floor of a random fraction of the pool length always is. -/
def validDraws (s : DrawState) : List (Nat × Nat) → Bool
  | [] => true
  | (i, t) :: rest => decide (i < s.participants.length) && validDraws (drawFull s i t) rest

/-- The user-triggered events of the component, with the random outcome and
clock reading of a draw as data. -/
inductive UiEvent where
  | setText (t : List Char)
  | submitClick
  | drawAt (r now : Nat)
  | resetClick
  | clearClick

/-- The component's reaction to one event, including the rendering guards:
the text area and the submit button exist only while the pool is empty, the
submit button is disabled on blank text, the draw and reset buttons exist
only while the pool is non-empty, the draw button is disabled while drawing
or on an empty pool, and the reset button is disabled while drawing or
before any draw. The random index of a draw is the floor of a random
fraction of the pool length, modelled as a remainder. -/
def applyEvent (s : DrawState) : UiEvent → DrawState
  | .setText t => if s.participants.length = 0 then { s with participantText := t } else s
  | .submitClick =>
      if s.participants.length = 0 ∧ jsTrim s.participantText ≠ [] then
        (handleParticipantsSubmit s).1
      else s
  | .drawAt r now => drawClick s (r % s.participants.length) now
  | .resetClick =>
      if 0 < s.participants.length ∧ s.isDrawing = false ∧ 0 < s.winners.length then
        resetDraw s
      else s
  | .clearClick => clearAll s

/-- States reachable from the initial state by user events. -/
inductive Reachable : DrawState → Prop where
  | init : Reachable initState
  | step : ∀ s ev, Reachable s → Reachable (applyEvent s ev)

/-- A sample participant used in concrete instances. -/
def pA : Participant := { number := 1, name := ['A'], id := ['1', '-', 'a'] }

/-- A second sample participant used in concrete instances. -/
def pB : Participant := { number := 2, name := ['B'], id := ['2', '-', 'b'] }

/-- A sample loaded state with a two-element pool. -/
def twoState : DrawState :=
  { initState with participants := [pA, pB], originalParticipants := [pA, pB] }

/-- A sample reachable state: text entered, loaded, and one draw done. -/
def demoState : DrawState :=
  applyEvent (applyEvent (applyEvent initState
    (UiEvent.setText (("1 - A\n2 - B").toList))) UiEvent.submitClick)
    (UiEvent.drawAt 0 7)

theorem isDigit_not_jsSpace {c : Char} (h : c.isDigit = true) : jsSpace c = false := by
  simp only [Char.isDigit, decide_eq_true_eq] at h
  simp only [jsSpace, Bool.or_eq_false_iff, decide_eq_false_iff_not]
  refine ⟨⟨⟨⟨⟨⟨?_, ?_⟩, ?_⟩, ?_⟩, ?_⟩, ?_⟩, ?_⟩ <;>
    · intro hc
      rw [hc] at h
      revert h
      decide

theorem jsSpace_hyphen : jsSpace '-' = false := by decide

theorem isDigit_ne_hyphen {c : Char} (h : c.isDigit = true) : c ≠ '-' := by
  intro hc
  rw [hc] at h
  revert h
  decide

theorem dropWhile_append_all {p : α → Bool} {a : List α} (b : List α)
    (h : ∀ c ∈ a, p c = true) : (a ++ b).dropWhile p = b.dropWhile p := by
  induction a with
  | nil => rfl
  | cons x xs ih =>
    have hx : p x = true := h x (List.mem_cons_self x xs)
    simp only [List.cons_append, List.dropWhile_cons, hx, if_true]
    exact ih (fun c hc => h c (List.mem_cons_of_mem x hc))

theorem takeWhile_append_stop {p : α → Bool} {a b : List α}
    (h : ∀ c ∈ a, p c = true) (hb : ∀ x l, b = x :: l → p x = false) :
    (a ++ b).takeWhile p = a ∧ (a ++ b).dropWhile p = b := by
  induction a with
  | nil =>
    cases b with
    | nil => exact ⟨rfl, rfl⟩
    | cons x l =>
      have hx := hb x l rfl
      simp [List.takeWhile_cons, List.dropWhile_cons, hx]
  | cons y ys ih =>
    have hy : p y = true := h y (List.mem_cons_self y ys)
    have ih2 := ih (fun c hc => h c (List.mem_cons_of_mem y hc))
    simp only [List.cons_append, List.takeWhile_cons, List.dropWhile_cons, hy, if_true]
    exact ⟨by rw [ih2.1], by rw [ih2.2]⟩

theorem dropWhile_idem (p : α → Bool) (l : List α) :
    (l.dropWhile p).dropWhile p = l.dropWhile p := by
  induction l with
  | nil => rfl
  | cons x xs ih =>
    by_cases hx : p x = true
    · simp only [List.dropWhile_cons, hx, if_true]
      exact ih
    · have hx2 : p x = false := by
        cases h2 : p x
        · rfl
        · exact absurd h2 hx
      simp [List.dropWhile_cons, hx2]

theorem mem_dropWhile_mem {p : α → Bool} {l : List α} {c : α}
    (h : c ∈ l.dropWhile p) : c ∈ l := by
  induction l with
  | nil => simp at h
  | cons x xs ih =>
    by_cases hx : p x = true
    · simp only [List.dropWhile_cons, hx, if_true] at h
      exact List.mem_cons_of_mem x (ih h)
    · have hx2 : p x = false := by
        cases h2 : p x
        · rfl
        · exact absurd h2 hx
      simp only [List.dropWhile_cons, hx2, Bool.false_eq_true, if_false] at h
      exact h

theorem jsTrim_dropWhile (l : List Char) :
    jsTrim (l.dropWhile jsSpace) = jsTrim l := by
  simp only [jsTrim, dropWhile_idem]

theorem jsTrim_eq_nil_iff {l : List Char} :
    jsTrim l = [] ↔ ∀ c ∈ l, jsSpace c = true := by
  simp only [jsTrim, List.reverse_eq_nil_iff, List.dropWhile_eq_nil_iff,
    List.mem_reverse]
  constructor
  · intro h c hc
    by_cases hsp : jsSpace c = true
    · exact hsp
    · have hc2 : c ∈ l.dropWhile jsSpace := by
        have hsplit := List.takeWhile_append_dropWhile jsSpace l
        rw [← hsplit] at hc
        rcases List.mem_append.mp hc with h1 | h1
        · exact absurd (List.mem_takeWhile_imp h1) hsp
        · exact h1
      exact h c hc2
  · intro h c hc
    exact h c (mem_dropWhile_mem hc)

theorem mem_jsTrim_mem {l : List Char} {c : Char} (h : c ∈ jsTrim l) : c ∈ l := by
  simp only [jsTrim, List.mem_reverse] at h
  exact mem_dropWhile_mem (by simpa using mem_dropWhile_mem h)

theorem jsSpace_not_isDigit {c : Char} (h : jsSpace c = true) : c.isDigit = false := by
  cases hd : c.isDigit
  · rfl
  · rw [isDigit_not_jsSpace hd] at h
    exact absurd h (by simp)

theorem matchLine_eq {t ds w1 w2 r : List Char}
    (ht : t = ds ++ w1 ++ '-' :: (w2 ++ r))
    (hds : ds ≠ []) (hdig : ∀ c ∈ ds, c.isDigit = true)
    (hw1 : ∀ c ∈ w1, jsSpace c = true) (hw2 : ∀ c ∈ w2, jsSpace c = true)
    (hnm : r.dropWhile jsSpace ≠ [])
    (hterm : ∀ c ∈ r, lineTerm c = false) :
    matchLine t = some (ds, r.dropWhile jsSpace) := by
  have hstop : ∀ x l, w1 ++ '-' :: (w2 ++ r) = x :: l → Char.isDigit x = false := by
    intro x l hx
    cases w1 with
    | nil =>
      simp only [List.nil_append, List.cons.injEq] at hx
      rw [← hx.1]
      decide
    | cons y ys =>
      simp only [List.cons_append, List.cons.injEq] at hx
      rw [← hx.1]
      exact jsSpace_not_isDigit (hw1 y (List.mem_cons_self y ys))
  have hsplit := takeWhile_append_stop (p := Char.isDigit) hdig hstop
  have h1 : t.takeWhile Char.isDigit = ds := by
    rw [ht, List.append_assoc]
    exact hsplit.1
  have h2 : t.dropWhile Char.isDigit = w1 ++ '-' :: (w2 ++ r) := by
    rw [ht, List.append_assoc]
    exact hsplit.2
  have h3 : (w1 ++ '-' :: (w2 ++ r)).dropWhile jsSpace = '-' :: (w2 ++ r) := by
    rw [dropWhile_append_all _ hw1]
    simp [List.dropWhile_cons, jsSpace_hyphen]
  have h4 : (w2 ++ r).dropWhile jsSpace = r.dropWhile jsSpace :=
    dropWhile_append_all _ hw2
  have hdsE : ds.isEmpty = false := by
    cases ds with
    | nil => exact absurd rfl hds
    | cons a l => rfl
  have hnmE : (r.dropWhile jsSpace).isEmpty = false := by
    cases hrw : r.dropWhile jsSpace with
    | nil => exact absurd hrw hnm
    | cons a l => rfl
  have hall : (r.dropWhile jsSpace).all (fun x => !lineTerm x) = true := by
    rw [List.all_eq_true]
    intro x hx
    rw [Bool.not_eq_true', hterm x (mem_dropWhile_mem hx)]
  rw [matchLine]
  simp only [h1, h2, hdsE, Bool.false_eq_true, if_false, h3, h4, hnmE, hall, if_true]

theorem accepted_parseLine_some {line : List Char} {p : Participant}
    (h : LineAccepted line p) : parseLine line = some p := by
  obtain ⟨ds, w1, w2, r, ht, hds, hdig, hw1, hw2, hterm, htr, hnum, hname, hid⟩ := h
  have hnm : r.dropWhile jsSpace ≠ [] := by
    intro hcon
    exact htr (jsTrim_eq_nil_iff.mpr (List.dropWhile_eq_nil_iff.mp hcon))
  have hmatch := matchLine_eq ht hds hdig hw1 hw2 hnm hterm
  have htrimnm : jsTrim (r.dropWhile jsSpace) = jsTrim r := jsTrim_dropWhile r
  have htrE : (jsTrim (r.dropWhile jsSpace)).isEmpty = false := by
    rw [htrimnm]
    cases hrw : jsTrim r with
    | nil => exact absurd hrw htr
    | cons a l => rfl
  rw [parseLine, hmatch]
  simp only [htrE, Bool.false_eq_true, if_false, Option.some.injEq]
  cases p with
  | mk pn pm pid =>
    simp only at hnum hname hid
    subst hnum
    subst hname
    rw [htrimnm]
    simp only [Participant.mk.injEq, true_and]
    rw [hid]

theorem parseLine_some_accepted {line : List Char} {p : Participant}
    (h : parseLine line = some p) : LineAccepted line p := by
  rw [parseLine] at h
  split at h
  · exact absurd h (by simp)
  · rename_i ds nm hm
    split at h
    · exact absurd h (by simp)
    · rename_i htrE
      rw [matchLine] at hm
      split at hm
      · exact absurd hm (by simp)
      · rename_i hdsE
        split at hm
        · exact absurd hm (by simp)
        · rename_i c r3 hr2
          split at hm
          · rename_i hc
            split at hm
            · rename_i hnmE
              have hallsp : ∀ x ∈ r3, jsSpace x = true :=
                List.dropWhile_eq_nil_iff.mp (List.isEmpty_iff.mp hnmE)
              split at hm
              · exact absurd hm (by simp)
              · rename_i c0 tl hrev
                split at hm
                · exact absurd hm (by simp)
                · have hc0 : c0 ∈ r3 := by
                    rw [← List.mem_reverse, hrev]
                    exact List.mem_cons_self c0 tl
                  have hnil : jsTrim nm = [] := by
                    have hnm0 : nm = [c0] :=
                    (congrArg Prod.snd (Option.some.inj hm)).symm
                    rw [hnm0]
                    refine jsTrim_eq_nil_iff.mpr ?_
                    intro x hx
                    rw [List.mem_singleton.mp hx]
                    exact hallsp c0 hc0
                  rw [hnil] at htrE
                  exact absurd rfl htrE
            · rename_i hnmE
              split at hm
              · rename_i hall
                have hds2 : (jsTrim line).takeWhile Char.isDigit = ds :=
                  congrArg Prod.fst (Option.some.inj hm)
                have hnm2 : r3.dropWhile jsSpace = nm :=
                  congrArg Prod.snd (Option.some.inj hm)
                refine ⟨ds, ((jsTrim line).dropWhile Char.isDigit).takeWhile jsSpace,
                  r3.takeWhile jsSpace, nm, ?_, ?_, ?_, ?_, ?_, ?_, ?_, ?_, ?_, ?_⟩
                · have e1 : ds ++ (jsTrim line).dropWhile Char.isDigit = jsTrim line := by
                    rw [← hds2]
                    exact List.takeWhile_append_dropWhile Char.isDigit (jsTrim line)
                  have e2 : ((jsTrim line).dropWhile Char.isDigit).takeWhile jsSpace ++
                      (c :: r3) = (jsTrim line).dropWhile Char.isDigit := by
                    rw [← hr2]
                    exact List.takeWhile_append_dropWhile jsSpace _
                  have e3 : r3.takeWhile jsSpace ++ nm = r3 := by
                    rw [← hnm2]
                    exact List.takeWhile_append_dropWhile jsSpace r3
                  rw [List.append_assoc, e3, ← hc, e2, e1]
                · intro hcon
                  rw [hcon] at hds2
                  exact hdsE (by rw [hds2]; rfl)
                · intro x hx
                  rw [← hds2] at hx
                  exact List.mem_takeWhile_imp hx
                · intro x hx
                  exact List.mem_takeWhile_imp hx
                · intro x hx
                  exact List.mem_takeWhile_imp hx
                · intro x hx
                  rw [← hnm2] at hx
                  have hxall := List.all_eq_true.mp hall x hx
                  rwa [Bool.not_eq_true'] at hxall
                · intro hcon
                  rw [hcon] at htrE
                  exact htrE rfl
                · rw [← Option.some.inj h]
                · rw [← Option.some.inj h]
                · rw [← Option.some.inj h]
              · exact absurd hm (by simp)
          · exact absurd hm (by simp)

theorem digitChar_isDigit (n : Nat) : (digitChar n).isDigit = true := by
  unfold digitChar
  split <;> decide

theorem digitChar_toNat {n : Nat} (h : n < 10) : (digitChar n).toNat = 48 + n := by
  interval_cases n <;> rfl

theorem natReprAux_append (fuel : Nat) :
    ∀ n acc, natReprAux fuel n acc = natReprAux fuel n [] ++ acc := by
  induction fuel with
  | zero => intro n acc; rfl
  | succ fuel ih =>
    intro n acc
    by_cases h : n < 10
    · simp [natReprAux, h]
    · simp only [natReprAux, h, if_false]
      rw [ih (n / 10) (digitChar (n % 10) :: acc), ih (n / 10) [digitChar (n % 10)],
        List.append_assoc]
      rfl

theorem digitsToNat_append_one (xs : List Char) (c : Char) :
    digitsToNat (xs ++ [c]) = digitsToNat xs * 10 + (c.toNat - 48) := by
  simp [digitsToNat, List.foldl_append]

theorem digitsToNat_natReprAux :
    ∀ fuel n, n ≤ fuel → digitsToNat (natReprAux fuel n []) = n := by
  intro fuel
  induction fuel with
  | zero =>
    intro n hn
    have : n = 0 := Nat.le_zero.mp hn
    rw [this]
    rfl
  | succ fuel ih =>
    intro n hn
    by_cases h : n < 10
    · simp only [natReprAux, h, if_true]
      simp [digitsToNat, digitChar_toNat h]
    · simp only [natReprAux, h, if_false]
      rw [natReprAux_append, digitsToNat_append_one]
      have hdiv : n / 10 ≤ fuel := by
        have h1 : n / 10 < n := Nat.div_lt_self (by omega) (by omega)
        omega
      rw [ih (n / 10) hdiv, digitChar_toNat (Nat.mod_lt n (by omega))]
      omega

theorem digitsToNat_natRepr (n : Nat) : digitsToNat (natRepr n) = n :=
  digitsToNat_natReprAux (n + 1) n (by omega)

theorem natRepr_injective {a b : Nat} (h : natRepr a = natRepr b) : a = b := by
  have ha := digitsToNat_natRepr a
  have hb := digitsToNat_natRepr b
  rw [← ha, ← hb, h]

theorem natReprAux_digits (fuel : Nat) :
    ∀ n acc, (∀ c ∈ acc, c.isDigit = true) →
      ∀ c ∈ natReprAux fuel n acc, c.isDigit = true := by
  induction fuel with
  | zero => intro n acc hacc; exact hacc
  | succ fuel ih =>
    intro n acc hacc c hc
    by_cases h : n < 10
    · simp only [natReprAux, h, if_true] at hc
      rcases List.mem_cons.mp hc with h1 | h1
      · rw [h1]; exact digitChar_isDigit n
      · exact hacc c h1
    · simp only [natReprAux, h, if_false] at hc
      refine ih (n / 10) (digitChar (n % 10) :: acc) ?_ c hc
      intro x hx
      rcases List.mem_cons.mp hx with h1 | h1
      · rw [h1]; exact digitChar_isDigit (n % 10)
      · exact hacc x h1

theorem natRepr_digits (n : Nat) : ∀ c ∈ natRepr n, c.isDigit = true :=
  natReprAux_digits (n + 1) n [] (by intro c hc; simp at hc)

theorem digits_hyphen_inj :
    ∀ xs ys : List Char, ∀ a b : List Char,
      (∀ c ∈ xs, c.isDigit = true) → (∀ c ∈ ys, c.isDigit = true) →
      xs ++ '-' :: a = ys ++ '-' :: b → xs = ys ∧ a = b := by
  intro xs
  induction xs with
  | nil =>
    intro ys a b hxs hys h
    cases ys with
    | nil =>
      simp only [List.nil_append, List.cons.injEq] at h
      exact ⟨rfl, h.2⟩
    | cons y ys2 =>
      simp only [List.nil_append, List.cons_append, List.cons.injEq] at h
      have hy := hys y (List.mem_cons_self y ys2)
      rw [← h.1] at hy
      exact absurd hy (by decide)
  | cons x xs2 ih =>
    intro ys a b hxs hys h
    cases ys with
    | nil =>
      simp only [List.cons_append, List.nil_append, List.cons.injEq] at h
      have hx := hxs x (List.mem_cons_self x xs2)
      rw [h.1] at hx
      exact absurd hx (by decide)
    | cons y ys2 =>
      simp only [List.cons_append, List.cons.injEq] at h
      have hrest := ih ys2 a b
        (fun c hc => hxs c (List.mem_cons_of_mem x hc))
        (fun c hc => hys c (List.mem_cons_of_mem y hc)) h.2
      exact ⟨by rw [h.1, hrest.1], hrest.2⟩

theorem foldl_push_eq_filterMap :
    ∀ (l : List (List Char)) (acc : List Participant),
      l.foldl pushParsed acc = acc ++ l.filterMap parseLine := by
  intro l
  induction l with
  | nil => intro acc; simp
  | cons x xs ih =>
    intro acc
    simp only [List.foldl_cons, List.filterMap_cons]
    cases hf : parseLine x with
    | none =>
      simp only [pushParsed, hf]
      rw [ih]
    | some y =>
      simp only [pushParsed, hf]
      rw [ih, List.append_assoc]
      rfl

theorem parseParticipants_eq_filterMap (text : List Char) :
    parseParticipants text =
      ((splitNl (jsTrim text)).filter
        (fun l => !(jsTrim l).isEmpty)).filterMap parseLine := by
  rw [parseParticipants, foldl_push_eq_filterMap _ [], List.nil_append]

theorem mem_parseParticipants_id {text : List Char} {p : Participant}
    (h : p ∈ parseParticipants text) :
    p.id = natRepr p.number ++ '-' :: (collapseWs p.name).map Char.toLower := by
  rw [parseParticipants_eq_filterMap] at h
  obtain ⟨l, _, hl⟩ := List.mem_filterMap.mp h
  obtain ⟨ds, w1, w2, r, _, _, _, _, _, _, _, _, _, hid⟩ := parseLine_some_accepted hl
  exact hid

/-- Claim C1: the parser returns exactly the participants of the lines that,
after trimming, match the integer, optional whitespace, hyphen, optional
whitespace, rest-of-line pattern with a successfully parsed integer and a
non-empty trimmed remainder, in input line order, silently discarding
non-matching lines; each record carries the parsed integer, the trimmed
remainder as name, and an id that is the decimal number, a hyphen, and the
name lowercased with whitespace runs collapsed to single hyphens, a pure
deterministic function of number and normalized name. -/
theorem parseParticipants_contract (text : List Char) :
    parseParticipants text =
      ((splitNl (jsTrim text)).filter
        (fun l => !(jsTrim l).isEmpty)).filterMap parseLine ∧
    (∀ l p, parseLine l = some p ↔ LineAccepted l p) ∧
    (∀ p ∈ parseParticipants text,
      p.id = natRepr p.number ++ '-' :: (collapseWs p.name).map Char.toLower) :=
  ⟨parseParticipants_eq_filterMap text,
   fun _ _ => ⟨parseLine_some_accepted, accepted_parseLine_some⟩,
   fun _ hp => mem_parseParticipants_id hp⟩

/-- Concrete instance of claim C1 on the line 1 - John Doe. -/
theorem parseParticipants_contract_witness :
    LineAccepted ("1 - John Doe".toList)
      { number := 1, name := "John Doe".toList, id := "1-john-doe".toList } ∧
    Participant.id
        { number := 1, name := "John Doe".toList, id := "1-john-doe".toList } =
      natRepr 1 ++ '-' :: (collapseWs ("John Doe".toList)).map Char.toLower :=
  ⟨((parseParticipants_contract ("1 - John Doe".toList)).2.1 ("1 - John Doe".toList)
      { number := 1, name := "John Doe".toList, id := "1-john-doe".toList }).mp
      (by decide),
   (parseParticipants_contract ("1 - John Doe".toList)).2.2
      { number := 1, name := "John Doe".toList, id := "1-john-doe".toList }
      (by decide)⟩

theorem withIdx_map_fst (l : List α) : ∀ k, (withIdx k l).map Prod.fst = l := by
  induction l with
  | nil => intro k; rfl
  | cons x xs ih => intro k; simp [withIdx, ih]

theorem mem_withIdx {x : α} : ∀ {l : List α} {i k : Nat},
    (x, i) ∈ withIdx k l ↔ k ≤ i ∧ l.get? (i - k) = some x := by
  intro l
  induction l with
  | nil => intro i k; simp [withIdx]
  | cons y ys ih =>
    intro i k
    constructor
    · intro h
      rcases List.mem_cons.mp h with h1 | h1
      · have hx : x = y := congrArg Prod.fst h1
        have hi : i = k := congrArg Prod.snd h1
        subst hx
        subst hi
        simp
      · obtain ⟨hk, hg⟩ := ih.mp h1
        refine ⟨by omega, ?_⟩
        have he : i - k = (i - (k + 1)) + 1 := by omega
        rw [he, List.get?_cons_succ]
        exact hg
    · intro h
      obtain ⟨hk, hg⟩ := h
      by_cases hik : i = k
      · subst hik
        simp only [Nat.sub_self, List.get?_cons_zero, Option.some.injEq] at hg
        rw [hg]
        exact List.mem_cons_self _ _
      · have hk1 : k + 1 ≤ i := by omega
        have he : i - k = (i - (k + 1)) + 1 := by omega
        rw [he, List.get?_cons_succ] at hg
        exact List.mem_cons_of_mem _ (ih.mpr ⟨hk1, hg⟩)

theorem jsIndexOfAux_shift (x : Nat) :
    ∀ (l : List Nat) (k : Nat), jsIndexOfAux x l k = k + jsIndexOfAux x l 0 := by
  intro l
  induction l with
  | nil => intro k; simp [jsIndexOfAux]
  | cons y ys ih =>
    intro k
    by_cases hy : y = x
    · simp [jsIndexOfAux, hy]
    · simp only [jsIndexOfAux, hy, if_false]
      rw [ih (k + 1), ih 1]
      omega

theorem jsIndexOf_cons (x y : Nat) (ys : List Nat) :
    jsIndexOf x (y :: ys) = if y = x then 0 else jsIndexOf x ys + 1 := by
  by_cases hy : y = x
  · simp [jsIndexOf, jsIndexOfAux, hy]
  · simp only [jsIndexOf, jsIndexOfAux, hy, if_false]
    rw [jsIndexOfAux_shift]
    omega

theorem get?_jsIndexOf {x : Nat} : ∀ {l : List Nat},
    x ∈ l → l.get? (jsIndexOf x l) = some x := by
  intro l
  induction l with
  | nil => intro h; simp at h
  | cons y ys ih =>
    intro h
    rw [jsIndexOf_cons]
    by_cases hy : y = x
    · simp [hy]
    · simp only [hy, if_false, List.get?_cons_succ]
      rcases List.mem_cons.mp h with h1 | h1
      · exact absurd h1.symm hy
      · exact ih h1

theorem jsIndexOf_le {x : Nat} : ∀ {l : List Nat} {i : Nat},
    l.get? i = some x → jsIndexOf x l ≤ i := by
  intro l
  induction l with
  | nil => intro i h; simp at h
  | cons y ys ih =>
    intro i h
    rw [jsIndexOf_cons]
    cases i with
    | zero =>
      simp only [List.get?_cons_zero, Option.some.injEq] at h
      simp [h]
    | succ i2 =>
      by_cases hy : y = x
      · simp [hy]
      · simp only [hy, if_false]
        rw [List.get?_cons_succ] at h
        have := ih h
        omega

theorem count_two_of_indices {x : Nat} : ∀ {l : List Nat} {i j : Nat},
    i < j → l.get? i = some x → l.get? j = some x → 2 ≤ List.count x l := by
  intro l
  induction l with
  | nil => intro i j hij hi hj; simp at hi
  | cons y ys ih =>
    intro i j hij hi hj
    cases i with
    | zero =>
      simp only [List.get?_cons_zero, Option.some.injEq] at hi
      cases j with
      | zero => omega
      | succ j2 =>
        rw [List.get?_cons_succ] at hj
        have hmem : x ∈ ys := List.get?_mem hj
        have hpos : 0 < List.count x ys := List.count_pos_iff.mpr hmem
        rw [List.count_cons]
        simp only [hi, beq_self_eq_true, if_true]
        omega
    | succ i2 =>
      cases j with
      | zero => omega
      | succ j2 =>
        rw [List.get?_cons_succ] at hi hj
        have := ih (by omega : i2 < j2) hi hj
        rw [List.count_cons]
        omega

theorem indices_of_count_two {x : Nat} : ∀ {l : List Nat},
    2 ≤ List.count x l →
    ∃ i j, i < j ∧ l.get? i = some x ∧ l.get? j = some x := by
  intro l
  induction l with
  | nil => intro h; simp at h
  | cons y ys ih =>
    intro h
    by_cases hy : y = x
    · have hpos : 0 < List.count x ys := by
        rw [List.count_cons] at h
        simp only [hy, beq_self_eq_true, if_true] at h
        omega
      have hmem : x ∈ ys := List.count_pos_iff.mp hpos
      obtain ⟨j, hj⟩ := List.mem_iff_get?.mp hmem
      exact ⟨0, j + 1, by omega,
        by simp [hy], by rw [List.get?_cons_succ]; exact hj⟩
    · have h2 : 2 ≤ List.count x ys := by
        rw [List.count_cons] at h
        have hbeq : (y == x) = false := beq_false_of_ne hy
        simp only [hbeq, Bool.false_eq_true, if_false] at h
        omega
      obtain ⟨i, j, hij, hi, hj⟩ := ih h2
      exact ⟨i + 1, j + 1, by omega,
        by rw [List.get?_cons_succ]; exact hi,
        by rw [List.get?_cons_succ]; exact hj⟩

theorem mem_duplicatesIn {numbers : List Nat} {x : Nat} :
    x ∈ duplicatesIn numbers ↔ 2 ≤ List.count x numbers := by
  constructor
  · intro h
    rw [duplicatesIn] at h
    obtain ⟨pr, hpr, hfst⟩ := List.mem_map.mp h
    obtain ⟨hmem, hq⟩ := List.mem_filter.mp hpr
    obtain ⟨px, pi⟩ := pr
    simp only at hfst
    have hget : numbers.get? pi = some x := by
      have h2 := mem_withIdx.mp hmem
      rw [← hfst]
      simpa using h2.2
    simp only [decide_eq_true_eq] at hq
    rw [hfst] at hq
    have hle := jsIndexOf_le hget
    have hlt : jsIndexOf x numbers < pi := by omega
    have hfirst : numbers.get? (jsIndexOf x numbers) = some x :=
      get?_jsIndexOf (List.get?_mem hget)
    exact count_two_of_indices hlt hfirst hget
  · intro h
    obtain ⟨i, j, hij, hi, hj⟩ := indices_of_count_two h
    have hle := jsIndexOf_le hi
    rw [duplicatesIn]
    refine List.mem_map.mpr ⟨(x, j), ?_, rfl⟩
    refine List.mem_filter.mpr ⟨mem_withIdx.mpr ⟨by omega, by simpa using hj⟩, ?_⟩
    simp only [decide_eq_true_eq]
    omega

theorem duplicatesIn_eq_nil_iff {numbers : List Nat} :
    duplicatesIn numbers = [] ↔ numbers.Nodup := by
  rw [List.eq_nil_iff_forall_not_mem, List.nodup_iff_count_le_one]
  constructor
  · intro h a
    by_contra hc
    exact h a (mem_duplicatesIn.mpr (by omega))
  · intro h x hx
    have := mem_duplicatesIn.mp hx
    have := h x
    omega

theorem mem_dedupFirst {x : Nat} : ∀ {l seen : List Nat},
    x ∈ dedupFirst seen l ↔ x ∈ l ∧ x ∉ seen := by
  intro l
  induction l with
  | nil => intro seen; simp [dedupFirst]
  | cons y ys ih =>
    intro seen
    by_cases hy : y ∈ seen
    · simp only [dedupFirst, hy, if_true]
      constructor
      · intro h
        obtain ⟨hm, hs⟩ := ih.mp h
        exact ⟨List.mem_cons_of_mem y hm, hs⟩
      · intro h
        obtain ⟨hor, hs⟩ := h
        rcases List.mem_cons.mp hor with h1 | h1
        · rw [h1] at hs; exact absurd hy hs
        · exact ih.mpr ⟨h1, hs⟩
    · simp only [dedupFirst, hy, if_false]
      constructor
      · intro h
        rcases List.mem_cons.mp h with h1 | h1
        · rw [h1]
          exact ⟨List.mem_cons_self y ys, hy⟩
        · obtain ⟨hm, hs⟩ := ih.mp h1
          have hxs : x ∉ seen := fun hc => hs (List.mem_cons_of_mem y hc)
          exact ⟨List.mem_cons_of_mem y hm, hxs⟩
      · intro h
        obtain ⟨hor, hs⟩ := h
        by_cases hxy : x = y
        · rw [hxy]; exact List.mem_cons_self y _
        · rcases List.mem_cons.mp hor with h1 | h1
          · exact absurd h1 hxy
          · refine List.mem_cons_of_mem y (ih.mpr ⟨h1, ?_⟩)
            intro hc
            rcases List.mem_cons.mp hc with h2 | h2
            · exact hxy h2
            · exact hs h2

theorem nodup_dedupFirst : ∀ (l seen : List Nat), (dedupFirst seen l).Nodup := by
  intro l
  induction l with
  | nil => intro seen; exact List.nodup_nil
  | cons y ys ih =>
    intro seen
    by_cases hy : y ∈ seen
    · simp only [dedupFirst, hy, if_true]
      exact ih seen
    · simp only [dedupFirst, hy, if_false]
      refine List.nodup_cons.mpr ⟨?_, ih (y :: seen)⟩
      intro hc
      exact (mem_dedupFirst.mp hc).2 (List.mem_cons_self y seen)

theorem handleSubmit_invalid {s : DrawState}
    (h : parseParticipants s.participantText = []) :
    handleParticipantsSubmit s = (s, SubmitOutcome.invalidFormat) := by
  simp [handleParticipantsSubmit, h]

theorem handleSubmit_duplicate {s : DrawState}
    (hne : parseParticipants s.participantText ≠ [])
    (hdup : duplicatesIn
      ((parseParticipants s.participantText).map Participant.number) ≠ []) :
    handleParticipantsSubmit s =
      (s, SubmitOutcome.duplicateNumbers (dedupFirst []
        (duplicatesIn
          ((parseParticipants s.participantText).map Participant.number)))) := by
  have h1 : ¬(parseParticipants s.participantText).length = 0 := by
    intro hc
    exact hne (List.length_eq_zero.mp hc)
  have h2 : 0 < (duplicatesIn
      ((parseParticipants s.participantText).map Participant.number)).length :=
    List.length_pos.mpr hdup
  simp only [handleParticipantsSubmit, h1, if_false, h2, if_true]

theorem handleSubmit_success {s : DrawState}
    (hne : parseParticipants s.participantText ≠ [])
    (hnodup : ((parseParticipants s.participantText).map Participant.number).Nodup) :
    handleParticipantsSubmit s =
      ({ s with
          participants := parseParticipants s.participantText
          originalParticipants := parseParticipants s.participantText
          winners := []
          currentWinner := none },
        SubmitOutcome.loaded (parseParticipants s.participantText).length) := by
  have h1 : ¬(parseParticipants s.participantText).length = 0 := by
    intro hc
    exact hne (List.length_eq_zero.mp hc)
  have h2 : duplicatesIn
      ((parseParticipants s.participantText).map Participant.number) = [] :=
    duplicatesIn_eq_nil_iff.mpr hnodup
  have h3 : ¬0 < (duplicatesIn
      ((parseParticipants s.participantText).map Participant.number)).length := by
    rw [h2]
    simp
  simp only [handleParticipantsSubmit, h1, if_false, h3]

/-- Claim C3: the load operation rejects an empty parse with the invalid
format error, rejects duplicate numbers with the duplicate numbers error
reporting exactly the distinct values occurring more than once, and in both
rejection cases leaves the state unchanged. -/
theorem load_rejections (s : DrawState) :
    (parseParticipants s.participantText = [] →
      handleParticipantsSubmit s = (s, SubmitOutcome.invalidFormat)) ∧
    (parseParticipants s.participantText ≠ [] →
      ¬((parseParticipants s.participantText).map Participant.number).Nodup →
      (handleParticipantsSubmit s).1 = s ∧
      ∃ ds, (handleParticipantsSubmit s).2 = SubmitOutcome.duplicateNumbers ds ∧
        ds.Nodup ∧
        (∀ d, d ∈ ds ↔ 2 ≤ List.count d
          ((parseParticipants s.participantText).map Participant.number))) := by
  constructor
  · intro h
    exact handleSubmit_invalid h
  · intro hne hnodup
    have hdup : duplicatesIn
        ((parseParticipants s.participantText).map Participant.number) ≠ [] := by
      intro hc
      exact hnodup (duplicatesIn_eq_nil_iff.mp hc)
    rw [handleSubmit_duplicate hne hdup]
    refine ⟨rfl, dedupFirst [] (duplicatesIn
      ((parseParticipants s.participantText).map Participant.number)),
      rfl, nodup_dedupFirst _ _, ?_⟩
    intro d
    rw [mem_dedupFirst]
    constructor
    · intro h
      exact mem_duplicatesIn.mp h.1
    · intro h
      exact ⟨mem_duplicatesIn.mpr h, List.not_mem_nil d⟩

/-- Concrete instances of claim C3: an unparseable text and a text with a
duplicated number. -/
theorem load_rejections_witness :
    (handleParticipantsSubmit { initState with participantText := "abc".toList } =
      ({ initState with participantText := "abc".toList },
        SubmitOutcome.invalidFormat)) ∧
    ((handleParticipantsSubmit
        { initState with participantText := ("1 - A\n1 - B").toList }).1 =
      { initState with participantText := ("1 - A\n1 - B").toList } ∧
    ∃ ds, (handleParticipantsSubmit
        { initState with participantText := ("1 - A\n1 - B").toList }).2 =
        SubmitOutcome.duplicateNumbers ds ∧
      ds.Nodup ∧
      (∀ d, d ∈ ds ↔ 2 ≤ List.count d
        ((parseParticipants (("1 - A\n1 - B").toList)).map Participant.number))) :=
  ⟨(load_rejections _).1 (by decide),
   (load_rejections _).2 (by decide) (by decide)⟩

/-- Claim C9: when the parse of the submitted text is non-empty with
pairwise-distinct numbers, the load installs the parsed list as both the
working pool and the original snapshot and clears the winners history and
the current winner. -/
theorem load_success (s : DrawState)
    (hne : parseParticipants s.participantText ≠ [])
    (hnodup : ((parseParticipants s.participantText).map Participant.number).Nodup) :
    handleParticipantsSubmit s =
      ({ s with
          participants := parseParticipants s.participantText
          originalParticipants := parseParticipants s.participantText
          winners := []
          currentWinner := none },
        SubmitOutcome.loaded (parseParticipants s.participantText).length) :=
  handleSubmit_success hne hnodup

/-- Concrete instance of claim C9 on a two-line text. -/
theorem load_success_witness :
    handleParticipantsSubmit
        { initState with participantText := ("1 - A\n2 - B").toList } =
      ({ { initState with participantText := ("1 - A\n2 - B").toList } with
          participants := parseParticipants (("1 - A\n2 - B").toList)
          originalParticipants := parseParticipants (("1 - A\n2 - B").toList)
          winners := []
          currentWinner := none },
        SubmitOutcome.loaded (parseParticipants (("1 - A\n2 - B").toList)).length) :=
  load_success _ (by decide) (by decide)

theorem nodup_ids_of_nodup_numbers : ∀ {l : List Participant},
    (l.map Participant.number).Nodup →
    (∀ p ∈ l, p.id = natRepr p.number ++ '-' :: (collapseWs p.name).map Char.toLower) →
    (l.map Participant.id).Nodup := by
  intro l
  induction l with
  | nil => intro _ _; exact List.nodup_nil
  | cons p ps ih =>
    intro hnum hshape
    simp only [List.map_cons, List.nodup_cons] at hnum ⊢
    constructor
    · intro hc
      obtain ⟨q, hq, hid⟩ := List.mem_map.mp hc
      have hp := hshape p (List.mem_cons_self p ps)
      have hqs := hshape q (List.mem_cons_of_mem p hq)
      rw [hp, hqs] at hid
      have hinj := digits_hyphen_inj (natRepr q.number) (natRepr p.number) _ _
        (natRepr_digits q.number) (natRepr_digits p.number) hid
      have hnumeq : q.number = p.number := natRepr_injective hinj.1
      exact hnum.1 (List.mem_map.mpr ⟨q, hq, hnumeq⟩)
    · exact ih hnum.2 (fun q hq => hshape q (List.mem_cons_of_mem p hq))

/-- Claim C10: after a successful load the ids of the loaded participants
are pairwise distinct, each id starting with the participant's decimal
number and a hyphen, so the list keys never collide within one loaded
list. -/
theorem loaded_ids_distinct (s s2 : DrawState) (k : Nat)
    (h : handleParticipantsSubmit s = (s2, SubmitOutcome.loaded k)) :
    (s2.participants.map Participant.id).Nodup ∧
    ∀ p ∈ s2.participants, ∃ rest, p.id = natRepr p.number ++ '-' :: rest := by
  by_cases h0 : parseParticipants s.participantText = []
  · rw [handleSubmit_invalid h0] at h
    exact absurd (congrArg Prod.snd h) (by simp)
  · by_cases hdup : duplicatesIn
        ((parseParticipants s.participantText).map Participant.number) = []
    · have hnodup := duplicatesIn_eq_nil_iff.mp hdup
      rw [handleSubmit_success h0 hnodup] at h
      have hfst : ({ s with
          participants := parseParticipants s.participantText
          originalParticipants := parseParticipants s.participantText
          winners := []
          currentWinner := none } : DrawState) = s2 := congrArg Prod.fst h
      have hs2 : s2.participants = parseParticipants s.participantText := by
        rw [← hfst]
      constructor
      · rw [hs2]
        exact nodup_ids_of_nodup_numbers hnodup
          (fun p hp => mem_parseParticipants_id hp)
      · intro p hp
        rw [hs2] at hp
        exact ⟨(collapseWs p.name).map Char.toLower, mem_parseParticipants_id hp⟩
    · rw [handleSubmit_duplicate h0 hdup] at h
      exact absurd (congrArg Prod.snd h) (by simp)

/-- Concrete instance of claim C10 on a successful two-line load. -/
theorem loaded_ids_distinct_witness :
    (((handleParticipantsSubmit
        { initState with participantText := ("1 - A\n2 - B").toList }).1.participants.map
          Participant.id).Nodup ∧
      ∀ p ∈ (handleParticipantsSubmit
          { initState with participantText := ("1 - A\n2 - B").toList }).1.participants,
        ∃ rest, p.id = natRepr p.number ++ '-' :: rest) :=
  loaded_ids_distinct
    { initState with participantText := ("1 - A\n2 - B").toList }
    (handleParticipantsSubmit
      { initState with participantText := ("1 - A\n2 - B").toList }).1
    2 (by decide)

theorem withIdx_filter_ne_map : ∀ (l : List α) (k i : Nat),
    ((withIdx k l).filter (fun p => p.2 ≠ (k + i))).map Prod.fst = l.eraseIdx i := by
  intro l
  induction l with
  | nil => intro k i; rfl
  | cons x xs ih =>
    intro k i
    cases i with
    | zero =>
      simp only [withIdx, List.filter_cons]
      have hk : decide (k ≠ k + 0) = false := by simp
      rw [hk]
      simp only [Bool.false_eq_true, if_false, List.eraseIdx_cons_zero]
      have hkeep : (withIdx (k + 1) xs).filter (fun p => decide (p.2 ≠ k + 0)) =
          withIdx (k + 1) xs := by
        rw [List.filter_eq_self]
        intro a ha
        obtain ⟨av, ai⟩ := a
        have := (mem_withIdx.mp ha).1
        simp only [decide_eq_true_eq]
        omega
      rw [hkeep, withIdx_map_fst]
    | succ i2 =>
      simp only [withIdx, List.filter_cons]
      have hk : decide (k ≠ k + (i2 + 1)) = true := by
        simp only [decide_eq_true_eq]
        omega
      rw [hk]
      simp only [if_true, List.map_cons, List.eraseIdx_cons_succ, List.cons.injEq]
      refine ⟨trivial, ?_⟩
      have he : k + (i2 + 1) = (k + 1) + i2 := by omega
      rw [he]
      exact ih (k + 1) i2

theorem removeAtIdx_eq_eraseIdx (l : List α) (i : Nat) :
    removeAtIdx l i = l.eraseIdx i := by
  have h := withIdx_filter_ne_map l 0 i
  simp only [Nat.zero_add] at h
  exact h

theorem perm_cons_eraseIdx {p : α} : ∀ {l : List α} {i : Nat},
    l.get? i = some p → l.Perm (p :: l.eraseIdx i) := by
  intro l
  induction l with
  | nil => intro i h; simp at h
  | cons x xs ih =>
    intro i h
    cases i with
    | zero =>
      simp only [List.get?_cons_zero, Option.some.injEq] at h
      rw [h, List.eraseIdx_cons_zero]
    | succ i2 =>
      rw [List.get?_cons_succ] at h
      rw [List.eraseIdx_cons_succ]
      exact ((ih h).cons x).trans (List.Perm.swap p x _)

theorem drawFull_fields {s : DrawState} {i : Nat} (now : Nat)
    (h : i < s.participants.length) :
    ∃ p, s.participants.get? i = some p ∧
      (drawFull s i now).winners = s.winners ++
        [{ toParticipant := p, drawnAt := now, position := s.winners.length + 1 }] ∧
      (drawFull s i now).participants = s.participants.eraseIdx i ∧
      (drawFull s i now).currentWinner =
        some { toParticipant := p, drawnAt := now, position := s.winners.length + 1 } ∧
      (drawFull s i now).isDrawing = false ∧
      (drawFull s i now).originalParticipants = s.originalParticipants ∧
      (drawFull s i now).participantText = s.participantText := by
  have hlen : ¬s.participants.length = 0 := by omega
  have hget : s.participants.get? i = some (s.participants.get ⟨i, h⟩) :=
    List.get?_eq_get h
  refine ⟨s.participants.get ⟨i, h⟩, hget, ?_⟩
  simp only [drawFull, drawWinner, hlen, if_false, drawComplete, hget,
    removeAtIdx_eq_eraseIdx]
  exact ⟨trivial, trivial, trivial, trivial, trivial, trivial⟩

theorem drawFull_length {s : DrawState} {i : Nat} (now : Nat)
    (h : i < s.participants.length) :
    (drawFull s i now).participants.length + 1 = s.participants.length := by
  obtain ⟨p, _, _, hpart, _⟩ := drawFull_fields now h
  rw [hpart, List.length_eraseIdx]
  simp only [h, if_true]
  omega

theorem drawFull_original (s : DrawState) (i now : Nat) :
    (drawFull s i now).originalParticipants = s.originalParticipants := by
  by_cases hlen : s.participants.length = 0
  · simp [drawFull, drawWinner, hlen]
  · simp only [drawFull, drawWinner, hlen, if_false, drawComplete]
    split <;> rfl

theorem drawSeq_original : ∀ (ds : List (Nat × Nat)) (s : DrawState),
    (drawSeq s ds).originalParticipants = s.originalParticipants := by
  intro ds
  induction ds with
  | nil => intro s; rfl
  | cons h2 rest ih =>
    intro s
    obtain ⟨i, t⟩ := h2
    rw [drawSeq, ih, drawFull_original]

/-- Claim C2: a draw on a non-empty pool with an in-range index appends
exactly one winner carrying the selected participant's fields, the time
stamp, and position one past the previous winner count, removes exactly the
participant at that index so the pool shrinks by one, and a sequence of as
many valid draws as the pool holds leaves the pool empty. -/
theorem draw_step_exhaustion :
    (∀ (s : DrawState) (i now : Nat), i < s.participants.length →
      ∃ p, s.participants.get? i = some p ∧
        (drawFull s i now).winners = s.winners ++
          [{ toParticipant := p, drawnAt := now,
             position := s.winners.length + 1 }] ∧
        (drawFull s i now).participants = s.participants.eraseIdx i ∧
        (drawFull s i now).participants.length + 1 = s.participants.length) ∧
    (∀ (s : DrawState) (ds : List (Nat × Nat)),
      validDraws s ds = true → ds.length = s.participants.length →
      (drawSeq s ds).participants = []) := by
  constructor
  · intro s i now h
    obtain ⟨p, hget, hwin, hpart, _⟩ := drawFull_fields now h
    exact ⟨p, hget, hwin, hpart, drawFull_length now h⟩
  · intro s ds
    induction ds generalizing s with
    | nil =>
      intro _ hlen
      exact List.length_eq_zero.mp hlen.symm
    | cons h2 rest ih =>
      obtain ⟨i, t⟩ := h2
      intro hvalid hlen
      rw [validDraws, Bool.and_eq_true, decide_eq_true_eq] at hvalid
      rw [drawSeq]
      refine ih (drawFull s i t) hvalid.2 ?_
      have := drawFull_length t hvalid.1
      simp only [List.length_cons] at hlen
      omega

/-- Concrete instance of claim C2: one draw from a two-element pool and two
draws exhausting it. -/
theorem draw_step_exhaustion_witness :
    (∃ p, twoState.participants.get? 0 = some p ∧
      (drawFull twoState 0 5).winners = twoState.winners ++
        [{ toParticipant := p, drawnAt := 5,
           position := twoState.winners.length + 1 }] ∧
      (drawFull twoState 0 5).participants = twoState.participants.eraseIdx 0 ∧
      (drawFull twoState 0 5).participants.length + 1 =
        twoState.participants.length) ∧
    (drawSeq twoState [(0, 5), (0, 6)]).participants = [] :=
  ⟨draw_step_exhaustion.1 twoState 0 5 (by decide),
   draw_step_exhaustion.2 twoState [(0, 5), (0, 6)] (by decide) (by decide)⟩

/-- Claim C5: reset replaces the remaining pool with the full original
snapshot and clears the winners history and the in-flight winner, in every
state and regardless of how many draws have occurred. -/
theorem reset_restores (s : DrawState) :
    (resetDraw s).participants = s.originalParticipants ∧
    (resetDraw s).winners = [] ∧
    (resetDraw s).currentWinner = none ∧
    (resetDraw s).originalParticipants = s.originalParticipants ∧
    (∀ ds : List (Nat × Nat),
      (resetDraw (drawSeq s ds)).participants = s.originalParticipants ∧
      (resetDraw (drawSeq s ds)).winners = []) := by
  refine ⟨rfl, rfl, rfl, rfl, ?_⟩
  intro ds
  exact ⟨drawSeq_original ds s, rfl⟩

/-- Claim C6: clear returns the component to the initial empty state, wiping
the input text, the remaining pool, the original snapshot, the winners
history and the in-flight winner; the transient drawing flag is the sole
field it does not touch. -/
theorem clear_wipes (s : DrawState) :
    clearAll s = { initState with isDrawing := s.isDrawing } := rfl

/-- Claim C7: invoking the draw operation on an empty pool signals the
no-participants error and changes nothing, neither in the synchronous part
nor across the whole draw. -/
theorem draw_empty_pool (s : DrawState) (i now : Nat)
    (h : s.participants = []) :
    drawWinner s = (s, some DrawSignal.noParticipants) ∧ drawFull s i now = s := by
  have hlen : s.participants.length = 0 := by rw [h]; rfl
  constructor
  · simp [drawWinner, hlen]
  · simp [drawFull, drawWinner, hlen]

/-- Concrete instance of claim C7 at the initial state. -/
theorem draw_empty_pool_witness :
    drawWinner initState = (initState, some DrawSignal.noParticipants) ∧
    drawFull initState 0 0 = initState :=
  draw_empty_pool initState 0 0 rfl

/-- Claim C8: while the transient drawing state is set the draw control is
disabled, so invoking the draw operation changes no state and starts no
second draw. -/
theorem draw_reentrancy_guard (s : DrawState) (i now : Nat)
    (h : s.isDrawing = true) : drawClick s i now = s := by
  simp [drawClick, h]

/-- Concrete instance of claim C8 in a drawing state. -/
theorem draw_reentrancy_guard_witness :
    drawClick { initState with isDrawing := true } 0 0 =
      { initState with isDrawing := true } :=
  draw_reentrancy_guard { initState with isDrawing := true } 0 0 rfl

theorem applyEvent_setText_original (s : DrawState) (t : List Char) :
    (applyEvent s (UiEvent.setText t)).originalParticipants =
      s.originalParticipants := by
  simp only [applyEvent]
  split <;> rfl

theorem drawClick_original (s : DrawState) (i now : Nat) :
    (drawClick s i now).originalParticipants = s.originalParticipants := by
  rw [drawClick]
  split
  · rfl
  · exact drawFull_original s i now

theorem applyEvent_drawAt_original (s : DrawState) (r now : Nat) :
    (applyEvent s (UiEvent.drawAt r now)).originalParticipants =
      s.originalParticipants :=
  drawClick_original s (r % s.participants.length) now

theorem applyEvent_reset_original (s : DrawState) :
    (applyEvent s UiEvent.resetClick).originalParticipants =
      s.originalParticipants := by
  simp only [applyEvent]
  split <;> rfl

theorem inv_preserved {s : DrawState} (ev : UiEvent)
    (h1 : (s.participants ++ s.winners.map Winner.toParticipant).Perm
      s.originalParticipants)
    (h2 : ∀ k w, s.winners.get? k = some w → w.position = k + 1) :
    ((applyEvent s ev).participants ++
      (applyEvent s ev).winners.map Winner.toParticipant).Perm
      (applyEvent s ev).originalParticipants ∧
    (∀ k w, (applyEvent s ev).winners.get? k = some w → w.position = k + 1) := by
  cases ev with
  | setText t =>
    simp only [applyEvent]
    split
    · exact ⟨h1, h2⟩
    · exact ⟨h1, h2⟩
  | submitClick =>
    simp only [applyEvent]
    split
    · by_cases h0 : parseParticipants s.participantText = []
      · rw [handleSubmit_invalid h0]
        exact ⟨h1, h2⟩
      · by_cases hdup : duplicatesIn
            ((parseParticipants s.participantText).map Participant.number) = []
        · rw [handleSubmit_success h0 (duplicatesIn_eq_nil_iff.mp hdup)]
          constructor
          · simp only [List.map_nil, List.append_nil]
            exact List.Perm.refl _
          · intro k w hw
            simp at hw
        · rw [handleSubmit_duplicate h0 hdup]
          exact ⟨h1, h2⟩
    · exact ⟨h1, h2⟩
  | drawAt r now =>
    simp only [applyEvent]
    rw [drawClick]
    split
    · exact ⟨h1, h2⟩
    · rename_i hguard
      have hpos : 0 < s.participants.length := by
        rcases Nat.eq_zero_or_pos s.participants.length with hz | hp
        · exact absurd (Or.inr hz) hguard
        · exact hp
      have hi : r % s.participants.length < s.participants.length :=
        Nat.mod_lt r hpos
      obtain ⟨p, hget, hwin, hpart, hcw, hdr, horig, htxt⟩ := drawFull_fields now hi
      constructor
      · rw [hwin, hpart, horig, List.map_append]
        simp only [List.map_cons, List.map_nil]
        have step1 : (s.participants.eraseIdx (r % s.participants.length) ++
            (s.winners.map Winner.toParticipant ++ [p])).Perm
            (p :: (s.participants.eraseIdx (r % s.participants.length) ++
              s.winners.map Winner.toParticipant)) := by
          rw [← List.append_assoc]
          have hmid := @List.perm_middle Participant p
            (s.participants.eraseIdx (r % s.participants.length) ++
              s.winners.map Winner.toParticipant) []
          rw [List.append_nil] at hmid
          exact hmid
        have step2 : (p :: (s.participants.eraseIdx (r % s.participants.length) ++
            s.winners.map Winner.toParticipant)).Perm
            (s.participants ++ s.winners.map Winner.toParticipant) :=
          List.Perm.append_right _ (perm_cons_eraseIdx hget).symm
        exact step1.trans (step2.trans h1)
      · intro k w2 hw2
        rw [hwin] at hw2
        by_cases hk : k < s.winners.length
        · rw [List.get?_append hk] at hw2
          exact h2 k w2 hw2
        · have hk2 : s.winners.length ≤ k := by omega
          rw [List.get?_append_right hk2] at hw2
          cases he : k - s.winners.length with
          | zero =>
            rw [he] at hw2
            simp only [List.get?_cons_zero, Option.some.injEq] at hw2
            rw [← hw2]
            simp only
            omega
          | succ m =>
            rw [he] at hw2
            simp at hw2
  | resetClick =>
    simp only [applyEvent]
    split
    · constructor
      · simp only [resetDraw, List.map_nil, List.append_nil]
        exact List.Perm.refl _
      · intro k w hw
        simp [resetDraw] at hw
    · exact ⟨h1, h2⟩
  | clearClick =>
    constructor
    · exact List.Perm.refl _
    · intro k w hw
      simp [applyEvent, clearAll] at hw

theorem reachable_inv {s : DrawState} (hs : Reachable s) :
    (s.participants ++ s.winners.map Winner.toParticipant).Perm
      s.originalParticipants ∧
    (∀ k w, s.winners.get? k = some w → w.position = k + 1) := by
  induction hs with
  | init =>
    constructor
    · exact List.Perm.refl _
    · intro k w hw
      simp [initState] at hw
  | step s0 ev h0 ih => exact inv_preserved ev ih.1 ih.2

/-- Claim C4: in every state reachable by user events, the remaining pool
together with the winners, taken as participants, is a permutation of the
original snapshot, each winner's position records the order it was drawn,
and the snapshot is never modified by a text edit, a draw, or a reset. -/
theorem pool_invariant (s : DrawState) (hs : Reachable s) :
    ((s.participants ++ s.winners.map Winner.toParticipant).Perm
        s.originalParticipants ∧
      (∀ k w, s.winners.get? k = some w → w.position = k + 1)) ∧
    (∀ t, (applyEvent s (UiEvent.setText t)).originalParticipants =
      s.originalParticipants) ∧
    (∀ r now, (applyEvent s (UiEvent.drawAt r now)).originalParticipants =
      s.originalParticipants) ∧
    (applyEvent s UiEvent.resetClick).originalParticipants =
      s.originalParticipants :=
  ⟨reachable_inv hs,
   fun t => applyEvent_setText_original s t,
   fun r now => applyEvent_drawAt_original s r now,
   applyEvent_reset_original s⟩

/-- Concrete instance of claim C4 at a state reached by entering text,
loading it, and drawing once. -/
theorem pool_invariant_witness :
    ((demoState.participants ++ demoState.winners.map Winner.toParticipant).Perm
        demoState.originalParticipants ∧
      (∀ k w, demoState.winners.get? k = some w → w.position = k + 1)) ∧
    (∀ t, (applyEvent demoState (UiEvent.setText t)).originalParticipants =
      demoState.originalParticipants) ∧
    (∀ r now, (applyEvent demoState (UiEvent.drawAt r now)).originalParticipants =
      demoState.originalParticipants) ∧
    (applyEvent demoState UiEvent.resetClick).originalParticipants =
      demoState.originalParticipants :=
  pool_invariant demoState
    (Reachable.step (applyEvent (applyEvent initState
        (UiEvent.setText (("1 - A\n2 - B").toList))) UiEvent.submitClick)
      (UiEvent.drawAt 0 7)
      (Reachable.step (applyEvent initState
          (UiEvent.setText (("1 - A\n2 - B").toList))) UiEvent.submitClick
        (Reachable.step initState
          (UiEvent.setText (("1 - A\n2 - B").toList)) Reachable.init)))

end Giveaway
